import Mathlib

/-!
Verification of the cloud IP address aggregator (`src/cloud_addresses.py`).

The script fetches advertised CIDR ranges from six cloud providers, unions
them per address family, and hands the union to the aggregation step of
`main` (the spec's `Aggregate`, realised by the standard-library
`collapse_addresses`, whose body is not part of the repository).  We embed:

* the CIDR data model (`Cidr`, validity, coverage, containment, siblings);
* the Aggregator, modelled from the spec's two-phase algorithm
  (containment elimination, then sibling merging to a stacked fixpoint);
* the per-provider record-processing loops of the fetchers, and the
  failed-provider bookkeeping of `main`.
-/

/-- A CIDR block: a base address (as an unsigned integer of the family's
width) together with a length of the fixed leading bit pattern.  The spec
calls this value `NetworkPrefix`. -/
structure Cidr where
  base : Nat
  len : Nat
deriving DecidableEq

/-- Number of addresses in a block of the given length, for family width
`w` (32 for IPv4, 128 for IPv6). -/
def blockSize (w : Nat) (p : Cidr) : Nat := 2 ^ (w - p.len)

/-- A well-formed block of family width `w`: the length fits the family,
the base address fits the family, and all bits beyond the length are zero
(the canonical network address, as the spec's `NetworkPrefix` demands). -/
def Valid (w : Nat) (p : Cidr) : Prop :=
  p.len ≤ w ∧ p.base < 2 ^ w ∧ p.base % blockSize w p = 0

instance (w : Nat) (p : Cidr) : Decidable (Valid w p) :=
  inferInstanceAs (Decidable (_ ∧ _ ∧ _))

/-- Address `a` lies in the range of block `p`. -/
def covers (w : Nat) (p : Cidr) (a : Nat) : Prop :=
  p.base ≤ a ∧ a < p.base + blockSize w p

instance (w : Nat) (p : Cidr) (a : Nat) : Decidable (covers w p a) :=
  inferInstanceAs (Decidable (_ ∧ _))

/-- Range containment: every address of `p` lies in `q` (the ranges are
nonempty intervals, so endpoint inequalities say exactly that). -/
def subnetOf (w : Nat) (p q : Cidr) : Prop :=
  q.base ≤ p.base ∧ p.base + blockSize w p ≤ q.base + blockSize w q

instance (w : Nat) (p q : Cidr) : Decidable (subnetOf w p q) :=
  inferInstanceAs (Decidable (_ ∧ _))

/-- The other half of `p`'s parent block: the spec's sibling, the unique
block of the same length that together with `p` composes the parent. -/
def sibling (w : Nat) (p : Cidr) : Cidr :=
  if p.base % 2 ^ (w - p.len + 1) = 0 then ⟨p.base + 2 ^ (w - p.len), p.len⟩
  else ⟨p.base - 2 ^ (w - p.len), p.len⟩

/-- The parent (supernet one bit shorter) of block `p`. -/
def parentOf (w : Nat) (p : Cidr) : Cidr :=
  ⟨p.base - p.base % 2 ^ (w - p.len + 1), p.len - 1⟩

/-- Modelled from the spec: phase 1 of the Aggregator (containment
elimination), the body of `collapse_addresses` being absent from the
repository.  Every block that is a strict subnet of a distinct block of
the working set is discarded. -/
def phase1 (w : Nat) (s : Finset Cidr) : Finset Cidr :=
  s.filter (fun p => ¬ ∃ q ∈ s, q ≠ p ∧ subnetOf w p q)

/-- Modelled from the spec: the blocks of the working set whose complete
sibling set is present, i.e. the merge candidates of phase 2.  Length 0
(the whole address space) has no parent and never merges upward. -/
def mergeSet (w : Nat) (s : Finset Cidr) : Finset Cidr :=
  s.filter (fun p => p.len ≠ 0 ∧ sibling w p ∈ s)

/-- Modelled from the spec: one merging pass of phase 2 — every complete
sibling pair is removed and replaced by its parent (set semantics make a
parent that is already present collapse automatically). -/
def mergeAll (w : Nat) (s : Finset Cidr) : Finset Cidr :=
  (s \ mergeSet w s) ∪ (mergeSet w s).image (parentOf w)

/-- Modelled from the spec: one full round of the stacked fixpoint — a
merging pass followed by containment elimination (the spec requires
phase 1 to be re-run after merging, since a freshly merged parent can be
a subnet of a pre-existing block). -/
def aggStep (w : Nat) (s : Finset Cidr) : Finset Cidr :=
  phase1 w (mergeAll w s)

/-- Modelled from the spec: the explicit fixpoint loop over immutable
snapshots — repeat `aggStep` until a round produces no change, with fuel
(each productive round strictly shrinks the set, so `card + 1` rounds
always suffice). -/
def aggIter (w : Nat) : Nat → Finset Cidr → Finset Cidr
  | 0, s => s
  | Nat.succ n, s => if aggStep w s = s then s else aggIter w n (aggStep w s)

/-- Modelled from the spec: `Aggregate(input: PrefixSet) -> PrefixSet`,
the core prefix-aggregation engine (realised in the script by
`collapse_addresses`, whose body is outside the repository). -/
def Aggregate (w : Nat) (s : Finset Cidr) : Finset Cidr :=
  aggIter w (s.card + 1) s

/-- Aggregation as invoked on a collaborator-supplied collection whose
iteration order is not guaranteed: the collection is a set, so we take
the underlying finite set of the listed elements. -/
def AggregateList (w : Nat) (l : List Cidr) : Finset Cidr :=
  Aggregate w l.toFinset

/-- Some block of `s` covers address `a`. -/
def coveredBy (w : Nat) (s : Finset Cidr) (a : Nat) : Prop :=
  ∃ p ∈ s, covers w p a

/-- A parsed network as the fetchers handle it: address family version
(4 or 6), base address and length. -/
structure Net where
  ver : Nat
  base : Nat
  plen : Nat
deriving DecidableEq

/-- Width of an address family: 32 bits for version 4, 128 for version 6. -/
def famWidth (v : Nat) : Nat := if v = 4 then 32 else 128

instance {ε α : Type} [DecidableEq ε] [DecidableEq α] : DecidableEq (Except ε α)
  | Except.error e, Except.error f =>
    if h : e = f then isTrue (by rw [h]) else isFalse (fun hc => by cases hc; exact h rfl)
  | Except.error _, Except.ok _ => isFalse (fun hc => by cases hc)
  | Except.ok _, Except.error _ => isFalse (fun hc => by cases hc)
  | Except.ok a, Except.ok b =>
    if h : a = b then isTrue (by rw [h]) else isFalse (fun hc => by cases hc; exact h rfl)

/-- Modelled from the spec: the validation/normalization step of the
Prefix Parser collaborator (the standard-library `ip_network`, whose body
is not in the repository), applied to an already-decoded raw
(version, address, length) triple.  It "turns provider-specific textual
records into validated (network address, length, address family) triples":
a triple whose length or address does not fit the family fails to parse;
under strict parsing a value with nonzero bits beyond the length is also
rejected, while under non-strict parsing those host bits are masked to
zero, yielding the canonical network address. -/
def ipNetworkRaw (strict : Bool) (r : Net) : Option Net :=
  if (r.ver = 4 ∨ r.ver = 6) ∧ r.plen ≤ famWidth r.ver ∧ r.base < 2 ^ famWidth r.ver then
    if r.base % 2 ^ (famWidth r.ver - r.plen) = 0 then some r
    else if strict then none
    else some ⟨r.ver, r.base - r.base % 2 ^ (famWidth r.ver - r.plen), r.plen⟩
  else none

/-- `ip_network` on a textual record: an abstract decoder `toRaw` for the
provider-specific textual syntax, followed by the validation step. -/
def ipNetwork (toRaw : String → Option Net) (strict : Bool) (s : String) : Option Net :=
  (toRaw s).bind (ipNetworkRaw strict)

/-- The set-comprehension record loop of `fetch_aws_ip_ranges` and
`fetch_gcp_ip_ranges`: each record is parsed strictly inside the
comprehension; a record that fails to parse raises `ValueError`, which
those two fetchers do not catch (they only catch the transport
exception), so the whole comprehension aborts at that record. -/
def comprehend (toRaw : String → Option Net) : List String → Except String (Finset Net)
  | [] => Except.ok ∅
  | r :: rest =>
    match ipNetwork toRaw true r with
    | none => Except.error r
    | some n =>
      match comprehend toRaw rest with
      | Except.error e => Except.error e
      | Except.ok s => Except.ok (insert n s)

/-- Record processing of `fetch_aws_ip_ranges`: the IPv4 then the IPv6
record list, each through an uncaught-failure comprehension. -/
def fetch_aws_ip_ranges (toRaw : String → Option Net) (v4recs v6recs : List String) :
    Except String (Finset Net × Finset Net) :=
  match comprehend toRaw v4recs with
  | Except.error e => Except.error e
  | Except.ok s4 =>
    match comprehend toRaw v6recs with
    | Except.error e => Except.error e
    | Except.ok s6 => Except.ok (s4, s6)

/-- Record processing of `fetch_gcp_ip_ranges`: same uncaught-failure
comprehension shape as AWS, over the ipv4Prefix / ipv6Prefix records. -/
def fetch_gcp_ip_ranges (toRaw : String → Option Net) (v4recs v6recs : List String) :
    Except String (Finset Net × Finset Net) :=
  match comprehend toRaw v4recs with
  | Except.error e => Except.error e
  | Except.ok s4 =>
    match comprehend toRaw v6recs with
    | Except.error e => Except.error e
    | Except.ok s6 => Except.ok (s4, s6)

/-- One iteration of the per-record loop shared by the Azure and Oracle
fetchers: parse strictly, on `ValueError` skip just that record
(`continue`), otherwise add the network to the set of its family. -/
def skipStep (toRaw : String → Option Net) (acc : Finset Net × Finset Net) (r : String) :
    Finset Net × Finset Net :=
  match ipNetwork toRaw true r with
  | some n => if n.ver = 4 then (insert n acc.1, acc.2) else (acc.1, insert n acc.2)
  | none => acc

/-- Record processing of `fetch_azure_ip_ranges` over the flattened
`addressPrefixes` records. -/
def fetch_azure_ip_ranges (toRaw : String → Option Net) (records : List String) :
    Finset Net × Finset Net :=
  records.foldl (skipStep toRaw) (∅, ∅)

/-- Record processing of `fetch_oracle_ip_ranges` over the flattened
per-region `cidr` records. -/
def fetch_oracle_ip_ranges (toRaw : String → Option Net) (cidrs : List String) :
    Finset Net × Finset Net :=
  cidrs.foldl (skipStep toRaw) (∅, ∅)

/-- Characters of a line up to (excluding) the first comma. -/
def fieldAux : List Char → List Char
  | [] => []
  | c :: cs => if c = ',' then [] else c :: fieldAux cs

/-- The first comma-separated field of a line (`line.split(",")[0]`;
Python's `split` always yields at least one part).  Implemented by
recursion over the character list so that concrete runs compute. -/
def firstField (line : String) : String := String.mk (fieldAux line.data)

/-- `line.startswith("#")`: the line begins with the one-character
pattern `#`. -/
def startsWithHash (line : String) : Bool :=
  match line.data with
  | [] => false
  | c :: _ => c = '#'

/-- One iteration of the line loop of `fetch_digital_ocean_ip_ranges`:
the first CSV field is parsed strictly and a `ValueError` skips the line. -/
def doStep (toRaw : String → Option Net) (acc : Finset Net × Finset Net) (line : String) :
    Finset Net × Finset Net :=
  skipStep toRaw acc (firstField line)

/-- Record processing of `fetch_digital_ocean_ip_ranges` over the CSV
lines of the response. -/
def fetch_digital_ocean_ip_ranges (toRaw : String → Option Net) (lines : List String) :
    Finset Net × Finset Net :=
  lines.foldl (doStep toRaw) (∅, ∅)

/-- One iteration of the line loop of `linode_ip_ranges`: comment lines
starting with `#` are skipped; otherwise the first comma-separated field
is parsed with `strict=False` (host bits masked rather than rejected) and
the network goes to the set of its family (version 4, else version 6). -/
def linodeStep (toRaw : String → Option Net) (acc : Finset Net × Finset Net) (line : String) :
    Finset Net × Finset Net :=
  if startsWithHash line then acc
  else
    match ipNetwork toRaw false (firstField line) with
    | some n =>
      if n.ver = 4 then (insert n acc.1, acc.2)
      else if n.ver = 6 then (acc.1, insert n acc.2)
      else acc
    | none => acc

/-- Record processing of `linode_ip_ranges` over the response lines. -/
def linode_ip_ranges (toRaw : String → Option Net) (lines : List String) :
    Finset Net × Finset Net :=
  lines.foldl (linodeStep toRaw) (∅, ∅)

/-- A provider fetch outcome as `main` sees it: `none` when every retry
was exhausted (the fetcher catches the transport error and returns two
empty sets), otherwise the parsed per-family sets. -/
def providerSets (outcome : Option (Finset Net × Finset Net)) : Finset Net × Finset Net :=
  outcome.getD (∅, ∅)

/-- One step of the failed-provider bookkeeping of `main`: after a
provider's fetch, its name is appended to `failed_providers` exactly when
both of its returned sets are empty (`len(p4) == 0 and len(p6) == 0`). -/
def failedStep (acc : List String) (r : String × Option (Finset Net × Finset Net)) :
    List String :=
  if (providerSets r.2).1 = ∅ ∧ (providerSets r.2).2 = ∅ then acc ++ [r.1] else acc

/-- The `failed_providers` list `main` accumulates over the run. -/
def failed_providers (runs : List (String × Option (Finset Net × Finset Net))) : List String :=
  runs.foldl failedStep []

/-- The providers of a run whose fetch genuinely failed (retries
exhausted) — what the claim says the report lists exactly. -/
def fetchFailed (runs : List (String × Option (Finset Net × Finset Net))) : List String :=
  (runs.filter (fun r => r.2.isNone)).map (fun r => r.1)

/-- One step of the per-family union `main` builds before aggregation. -/
def unionStep (acc : Finset Net × Finset Net) (r : String × Option (Finset Net × Finset Net)) :
    Finset Net × Finset Net :=
  (acc.1 ∪ (providerSets r.2).1, acc.2 ∪ (providerSets r.2).2)

/-- The per-family unions `main` builds over all providers before
handing them to the aggregation step. -/
def mainUnion (runs : List (String × Option (Finset Net × Finset Net))) :
    Finset Net × Finset Net :=
  runs.foldl unionStep (∅, ∅)

/-- A small concrete decoder used to exercise the fetchers on closed
inputs: understands two IPv4 dotted-quad records (one canonical, one
with nonzero host bits) and one IPv6 record with nonzero host bits. -/
def tinyDecode (s : String) : Option Net :=
  if s = "10.0.0.0/24" then some ⟨4, 167772160, 24⟩
  else if s = "10.0.0.7/24" then some ⟨4, 167772167, 24⟩
  else if s = "2600::1/32" then some ⟨6, 9728 * 2 ^ 112 + 1, 32⟩
  else none

/-! ### Arithmetic facts about aligned blocks -/

lemma blockSize_pos (w : Nat) (p : Cidr) : 0 < blockSize w p :=
  pow_pos (by norm_num) _

/-- Membership in an aligned block of size `B` pins down the block base. -/
lemma block_mem_iff {B b a : Nat} (hB : 0 < B) (hd : B ∣ b) :
    b ≤ a ∧ a < b + B ↔ b = a - a % B := by
  obtain ⟨k, rfl⟩ := hd
  constructor
  · rintro ⟨h1, h2⟩
    have e : B * k + (a - B * k) = a := Nat.add_sub_cancel' h1
    have hm : a % B = (a - B * k) % B := by
      conv_lhs => rw [← e]
      exact Nat.mul_add_mod B k _
    have hlt : a - B * k < B := by omega
    rw [hm, Nat.mod_eq_of_lt hlt]
    omega
  · intro h
    have h1 : a % B < B := Nat.mod_lt a hB
    have h2 : a % B ≤ a := Nat.mod_le a B
    omega

/-- Two aligned blocks that share an address are nested: the smaller
block's range lies inside the larger one's. -/
lemma aligned_inclusion {Bp Bq bp bq a : Nat} (hBp : 0 < Bp) (hBq : 0 < Bq)
    (hd : Bp ∣ Bq) (hp : Bp ∣ bp) (hq : Bq ∣ bq)
    (h1 : bp ≤ a) (h2 : a < bp + Bp) (h3 : bq ≤ a) (h4 : a < bq + Bq) :
    bq ≤ bp ∧ bp + Bp ≤ bq + Bq := by
  have ep : bp = a - a % Bp := (block_mem_iff hBp hp).mp ⟨h1, h2⟩
  have eq2 : bq = a - a % Bq := (block_mem_iff hBq hq).mp ⟨h3, h4⟩
  have hs : a % Bp = a % Bq % Bp := (Nat.mod_mod_of_dvd a hd).symm
  have hsr : a % Bq % Bp ≤ a % Bq := Nat.mod_le _ _
  have hra : a % Bq ≤ a := Nat.mod_le a Bq
  have hrb : a % Bq < Bq := Nat.mod_lt a hBq
  refine ⟨by omega, ?_⟩
  have hdiv : a % Bq / Bp < Bq / Bp := Nat.div_lt_div_of_lt_of_dvd hd hrb
  have hmul : Bp * (a % Bq / Bp + 1) ≤ Bp * (Bq / Bp) := Nat.mul_le_mul_left Bp (by omega)
  rw [Nat.mul_div_cancel' hd] at hmul
  have hdm : Bp * (a % Bq / Bp) + a % Bq % Bp = a % Bq := Nat.div_add_mod _ _
  have hexp : Bp * (a % Bq / Bp + 1) = Bp * (a % Bq / Bp) + Bp := by ring
  omega

lemma valid_dvd {w : Nat} {p : Cidr} (hv : Valid w p) : blockSize w p ∣ p.base :=
  Nat.dvd_of_mod_eq_zero hv.2.2

lemma covers_mono {w : Nat} {p q : Cidr} {a : Nat} (hs : subnetOf w p q)
    (h : covers w p a) : covers w q a := by
  obtain ⟨hs1, hs2⟩ := hs
  obtain ⟨h1, h2⟩ := h
  exact ⟨by omega, by omega⟩

lemma subnetOf_refl (w : Nat) (p : Cidr) : subnetOf w p p :=
  ⟨le_refl _, le_refl _⟩

lemma subnetOf_trans {w : Nat} {p q r : Cidr} (h1 : subnetOf w p q)
    (h2 : subnetOf w q r) : subnetOf w p r := by
  obtain ⟨h1a, h1b⟩ := h1
  obtain ⟨h2a, h2b⟩ := h2
  exact ⟨by omega, by omega⟩

/-- Two valid blocks sharing an address are nested, with the
longer-length block the subnet. -/
lemma subnet_of_overlap {w : Nat} {p q : Cidr} (hp : Valid w p) (hq : Valid w q)
    (hlen : q.len ≤ p.len) {a : Nat} (ha : covers w p a) (hb : covers w q a) :
    subnetOf w p q := by
  have hd : blockSize w p ∣ blockSize w q := pow_dvd_pow 2 (Nat.sub_le_sub_left hlen w)
  exact aligned_inclusion (blockSize_pos w p) (blockSize_pos w q) hd
    (valid_dvd hp) (valid_dvd hq) ha.1 ha.2 hb.1 hb.2

/-- A strict subnet relation between distinct valid blocks strictly
shortens the length upward. -/
lemma subnet_len_lt {w : Nat} {p q : Cidr} (hp : Valid w p) (hq : Valid w q)
    (hs : subnetOf w p q) (hne : q ≠ p) : q.len < p.len := by
  obtain ⟨h1, h2⟩ := hs
  have hBle : blockSize w p ≤ blockSize w q := by omega
  have hexp : w - p.len ≤ w - q.len :=
    (Nat.pow_le_pow_iff_right (by norm_num : 1 < 2)).mp hBle
  have hwp := hp.1
  have hwq := hq.1
  have hlq : q.len ≤ p.len := by omega
  rcases Nat.lt_or_ge q.len p.len with h | h
  · exact h
  · exfalso
    have he : q.len = p.len := le_antisymm hlq h
    have hBeq : blockSize w p = blockSize w q := by
      unfold blockSize
      rw [he]
    have hbe : q.base = p.base := by omega
    exact hne (by cases p; cases q; simp_all)

/-! ### Sibling and parent blocks -/

lemma add_mod_of_mod_zero {b c m : Nat} (hb : b % m = 0) (hc : c < m) :
    (b + c) % m = c := by
  rw [Nat.add_mod, hb, Nat.zero_add, Nat.mod_mod_of_dvd c (dvd_refl m), Nat.mod_eq_of_lt hc]

lemma sub_mod_self {b B m : Nat} (hb : b % m = B) : (b - B) % m = 0 := by
  have h := Nat.div_add_mod b m
  rw [hb] at h
  have h2 : b - B = m * (b / m) := by omega
  rw [h2, Nat.mul_mod_right]

lemma mod_two_mul {B b : Nat} (hB : 0 < B) (hd : B ∣ b) :
    b % (2 * B) = 0 ∨ b % (2 * B) = B := by
  obtain ⟨k, rfl⟩ := hd
  rcases Nat.even_or_odd k with ⟨j, hj⟩ | ⟨j, hj⟩
  · left
    subst hj
    rw [show B * (j + j) = 2 * B * j by ring, Nat.mul_mod_right]
  · right
    subst hj
    rw [show B * (2 * j + 1) = 2 * B * j + B by ring, Nat.mul_add_mod,
      Nat.mod_eq_of_lt (by omega)]

lemma add_le_of_dvd_of_lt {d n m : Nat} (hd : d ∣ n) (hdm : d ∣ m) (h : n < m) :
    n + d ≤ m := by
  have h1 : d ∣ m - n := Nat.dvd_sub' hdm hd
  have h2 : d ≤ m - n := Nat.le_of_dvd (by omega) h1
  omega

/-- A valid block of nonzero length is the lower or the upper half of its
parent; in either case `sibling` and `parentOf` take the stated form. -/
lemma sibling_cases {w : Nat} {p : Cidr} (hv : Valid w p) (h0 : p.len ≠ 0) :
    (p.base % 2 ^ (w - p.len + 1) = 0 ∧
       sibling w p = ⟨p.base + 2 ^ (w - p.len), p.len⟩ ∧
       parentOf w p = ⟨p.base, p.len - 1⟩) ∨
    (p.base % 2 ^ (w - p.len + 1) = 2 ^ (w - p.len) ∧ 2 ^ (w - p.len) ≤ p.base ∧
       sibling w p = ⟨p.base - 2 ^ (w - p.len), p.len⟩ ∧
       parentOf w p = ⟨p.base - 2 ^ (w - p.len), p.len - 1⟩) := by
  have hB : 0 < 2 ^ (w - p.len) := pow_pos (by norm_num) _
  have h2B : 2 ^ (w - p.len + 1) = 2 * 2 ^ (w - p.len) := by rw [pow_succ]; ring
  have hdvd : 2 ^ (w - p.len) ∣ p.base := valid_dvd hv
  rcases mod_two_mul hB hdvd with h | h
  · left
    refine ⟨by rw [h2B]; exact h, ?_, ?_⟩
    · rw [sibling, if_pos (by rw [h2B]; exact h)]
    · rw [parentOf, h2B, h, Nat.sub_zero]
  · right
    have hle : 2 ^ (w - p.len) ≤ p.base := by
      have := Nat.mod_le p.base (2 * 2 ^ (w - p.len))
      omega
    refine ⟨by rw [h2B]; exact h, hle, ?_, ?_⟩
    · rw [sibling, if_neg (by rw [h2B, h]; omega)]
    · rw [parentOf, h2B, h]

lemma sibling_len {w : Nat} (p : Cidr) : (sibling w p).len = p.len := by
  rw [sibling]
  split <;> rfl

lemma parentOf_len {w : Nat} (p : Cidr) : (parentOf w p).len = p.len - 1 := rfl

lemma sibling_ne {w : Nat} {p : Cidr} (hv : Valid w p) (h0 : p.len ≠ 0) :
    sibling w p ≠ p := by
  have hB : 0 < 2 ^ (w - p.len) := pow_pos (by norm_num) _
  rcases sibling_cases hv h0 with ⟨_, hs, _⟩ | ⟨_, hle, hs, _⟩ <;>
    · rw [hs]
      intro hc
      have := congrArg Cidr.base hc
      simp only at this
      omega

lemma sibling_valid {w : Nat} {p : Cidr} (hv : Valid w p) (h0 : p.len ≠ 0) :
    Valid w (sibling w p) := by
  have hB : 0 < 2 ^ (w - p.len) := pow_pos (by norm_num) _
  have h2B : 2 ^ (w - p.len + 1) = 2 * 2 ^ (w - p.len) := by rw [pow_succ]; ring
  have hdvd : 2 ^ (w - p.len) ∣ p.base := valid_dvd hv
  have hwlen : w - p.len + 1 ≤ w := by
    have := hv.1
    omega
  have hdvd2 : 2 ^ (w - p.len + 1) ∣ 2 ^ w := pow_dvd_pow 2 hwlen
  rcases sibling_cases hv h0 with ⟨hm, hs, _⟩ | ⟨hm, hle, hs, _⟩
  · have hd2 : 2 ^ (w - p.len + 1) ∣ p.base := Nat.dvd_of_mod_eq_zero hm
    have hbound : p.base + 2 ^ (w - p.len + 1) ≤ 2 ^ w :=
      add_le_of_dvd_of_lt hd2 hdvd2 hv.2.1
    rw [hs]
    refine ⟨hv.1, ?_, ?_⟩
    · show p.base + 2 ^ (w - p.len) < 2 ^ w
      omega
    · show (p.base + 2 ^ (w - p.len)) % 2 ^ (w - p.len) = 0
      rw [Nat.add_mod_right]
      exact hv.2.2
  · rw [hs]
    refine ⟨hv.1, ?_, ?_⟩
    · show p.base - 2 ^ (w - p.len) < 2 ^ w
      have := hv.2.1
      omega
    · show (p.base - 2 ^ (w - p.len)) % 2 ^ (w - p.len) = 0
      have hd3 : 2 ^ (w - p.len) ∣ p.base - 2 ^ (w - p.len) :=
        Nat.dvd_sub' hdvd (dvd_refl _)
      exact Nat.mod_eq_zero_of_dvd hd3

lemma sibling_sibling {w : Nat} {p : Cidr} (hv : Valid w p) (h0 : p.len ≠ 0) :
    sibling w (sibling w p) = p := by
  have hB : 0 < 2 ^ (w - p.len) := pow_pos (by norm_num) _
  have h2B : 2 ^ (w - p.len + 1) = 2 * 2 ^ (w - p.len) := by rw [pow_succ]; ring
  rcases sibling_cases hv h0 with ⟨hm, hs, _⟩ | ⟨hm, hle, hs, _⟩
  · rw [hs, sibling]
    simp only
    rw [if_neg]
    · have hb : p.base + 2 ^ (w - p.len) - 2 ^ (w - p.len) = p.base := by omega
      rw [hb]
    · rw [h2B] at hm ⊢
      rw [add_mod_of_mod_zero hm (by omega)]
      omega
  · rw [hs, sibling]
    simp only
    rw [if_pos]
    · have hb : p.base - 2 ^ (w - p.len) + 2 ^ (w - p.len) = p.base := by omega
      rw [hb]
    · exact sub_mod_self hm

lemma parent_sibling {w : Nat} {p : Cidr} (hv : Valid w p) (h0 : p.len ≠ 0) :
    parentOf w (sibling w p) = parentOf w p := by
  have hB : 0 < 2 ^ (w - p.len) := pow_pos (by norm_num) _
  have h2B : 2 ^ (w - p.len + 1) = 2 * 2 ^ (w - p.len) := by rw [pow_succ]; ring
  rcases sibling_cases hv h0 with ⟨hm, hs, hpp⟩ | ⟨hm, hle, hs, hpp⟩
  · rw [hs, hpp, parentOf]
    simp only
    rw [h2B] at hm ⊢
    rw [add_mod_of_mod_zero hm (by omega), Nat.add_sub_cancel]
  · rw [hs, hpp, parentOf]
    simp only
    rw [sub_mod_self hm, Nat.sub_zero]

lemma parent_valid {w : Nat} {p : Cidr} (hv : Valid w p) (h0 : p.len ≠ 0) :
    Valid w (parentOf w p) := by
  have he : w - (p.len - 1) = w - p.len + 1 := by
    have := hv.1
    omega
  rcases sibling_cases hv h0 with ⟨hm, _, hpp⟩ | ⟨hm, hle, _, hpp⟩
  · rw [hpp]
    refine ⟨?_, hv.2.1, ?_⟩
    · show p.len - 1 ≤ w
      have := hv.1
      omega
    · show p.base % 2 ^ (w - (p.len - 1)) = 0
      rw [he]
      exact hm
  · rw [hpp]
    refine ⟨?_, ?_, ?_⟩
    · show p.len - 1 ≤ w
      have := hv.1
      omega
    · show p.base - 2 ^ (w - p.len) < 2 ^ w
      have := hv.2.1
      omega
    · show (p.base - 2 ^ (w - p.len)) % 2 ^ (w - (p.len - 1)) = 0
      rw [he]
      exact sub_mod_self hm

/-- The parent block covers exactly the addresses of the two siblings. -/
lemma covers_parent_iff {w : Nat} {p : Cidr} (hv : Valid w p) (h0 : p.len ≠ 0)
    (a : Nat) :
    covers w (parentOf w p) a ↔ covers w p a ∨ covers w (sibling w p) a := by
  have hB : 0 < 2 ^ (w - p.len) := pow_pos (by norm_num) _
  have he : w - (p.len - 1) = w - p.len + 1 := by
    have := hv.1
    omega
  rcases sibling_cases hv h0 with ⟨hm, hs, hpp⟩ | ⟨hm, hle, hs, hpp⟩
  · rw [hs, hpp]
    show p.base ≤ a ∧ a < p.base + 2 ^ (w - (p.len - 1)) ↔
      (p.base ≤ a ∧ a < p.base + 2 ^ (w - p.len)) ∨
      (p.base + 2 ^ (w - p.len) ≤ a ∧ a < p.base + 2 ^ (w - p.len) + 2 ^ (w - p.len))
    rw [he, pow_succ]
    omega
  · rw [hs, hpp]
    show p.base - 2 ^ (w - p.len) ≤ a ∧
        a < p.base - 2 ^ (w - p.len) + 2 ^ (w - (p.len - 1)) ↔
      (p.base ≤ a ∧ a < p.base + 2 ^ (w - p.len)) ∨
      (p.base - 2 ^ (w - p.len) ≤ a ∧ a < p.base - 2 ^ (w - p.len) + 2 ^ (w - p.len))
    rw [he, pow_succ]
    omega

/-! ### Phase 1: containment elimination -/

lemma phase1_subset (w : Nat) (s : Finset Cidr) : phase1 w s ⊆ s :=
  Finset.filter_subset _ s

/-- Containment elimination never changes the covered address set: any
discarded block is a strict subnet of a surviving block. -/
lemma phase1_coveredBy {w : Nat} {s : Finset Cidr} (hval : ∀ p ∈ s, Valid w p)
    (a : Nat) : coveredBy w (phase1 w s) a ↔ coveredBy w s a := by
  constructor
  · rintro ⟨p, hp, hc⟩
    exact ⟨p, phase1_subset w s hp, hc⟩
  · rintro ⟨p, hp, hc⟩
    have hne : (s.filter (fun q => subnetOf w p q)).Nonempty :=
      ⟨p, Finset.mem_filter.mpr ⟨hp, subnetOf_refl w p⟩⟩
    obtain ⟨q, hq, hmin⟩ := Finset.exists_min_image _ (fun q => q.len) hne
    rw [Finset.mem_filter] at hq
    refine ⟨q, ?_, covers_mono hq.2 hc⟩
    rw [phase1, Finset.mem_filter]
    refine ⟨hq.1, ?_⟩
    rintro ⟨r, hr, hrne, hsub⟩
    have hrT : r ∈ s.filter (fun q => subnetOf w p q) :=
      Finset.mem_filter.mpr ⟨hr, subnetOf_trans hq.2 hsub⟩
    have h1 := hmin r hrT
    have h2 := subnet_len_lt (hval q hq.1) (hval r hr) hsub hrne
    omega

/-! ### Phase 2: sibling merging -/

lemma mergeSet_subset (w : Nat) (s : Finset Cidr) : mergeSet w s ⊆ s :=
  Finset.filter_subset _ s

lemma mem_mergeSet {w : Nat} {s : Finset Cidr} {p : Cidr} :
    p ∈ mergeSet w s ↔ p ∈ s ∧ p.len ≠ 0 ∧ sibling w p ∈ s := by
  rw [mergeSet, Finset.mem_filter]

/-- The merge candidates come in complete sibling pairs. -/
lemma mergeSet_sibling {w : Nat} {s : Finset Cidr} (hval : ∀ p ∈ s, Valid w p)
    {p : Cidr} (hp : p ∈ mergeSet w s) : sibling w p ∈ mergeSet w s := by
  rw [mem_mergeSet] at hp ⊢
  obtain ⟨h1, h2, h3⟩ := hp
  refine ⟨h3, ?_, ?_⟩
  · rw [sibling_len]
    exact h2
  · rw [sibling_sibling (hval p h1) h2]
    exact h1

lemma mem_mergeAll {w : Nat} {s : Finset Cidr} {x : Cidr} :
    x ∈ mergeAll w s ↔
      (x ∈ s ∧ x ∉ mergeSet w s) ∨ ∃ p ∈ mergeSet w s, parentOf w p = x := by
  rw [mergeAll, Finset.mem_union, Finset.mem_sdiff, Finset.mem_image]

lemma mergeAll_valid {w : Nat} {s : Finset Cidr} (hval : ∀ p ∈ s, Valid w p) :
    ∀ x ∈ mergeAll w s, Valid w x := by
  intro x hx
  rcases mem_mergeAll.mp hx with ⟨hxs, _⟩ | ⟨p, hpM, rfl⟩
  · exact hval x hxs
  · obtain ⟨hps, h0, _⟩ := mem_mergeSet.mp hpM
    exact parent_valid (hval p hps) h0

/-- A merging pass never changes the covered address set: a parent covers
exactly what its two merged siblings covered, and both were present. -/
lemma mergeAll_coveredBy {w : Nat} {s : Finset Cidr} (hval : ∀ p ∈ s, Valid w p)
    (a : Nat) : coveredBy w (mergeAll w s) a ↔ coveredBy w s a := by
  constructor
  · rintro ⟨x, hx, hc⟩
    rcases mem_mergeAll.mp hx with ⟨hxs, _⟩ | ⟨p, hpM, rfl⟩
    · exact ⟨x, hxs, hc⟩
    · obtain ⟨hps, h0, hsib⟩ := mem_mergeSet.mp hpM
      rcases (covers_parent_iff (hval p hps) h0 a).mp hc with h | h
      · exact ⟨p, hps, h⟩
      · exact ⟨sibling w p, hsib, h⟩
  · rintro ⟨p, hps, hc⟩
    by_cases hpM : p ∈ mergeSet w s
    · obtain ⟨_, h0, _⟩ := mem_mergeSet.mp hpM
      exact ⟨parentOf w p, mem_mergeAll.mpr (Or.inr ⟨p, hpM, rfl⟩),
        (covers_parent_iff (hval p hps) h0 a).mpr (Or.inl hc)⟩
    · exact ⟨p, mem_mergeAll.mpr (Or.inl ⟨hps, hpM⟩), hc⟩

lemma mergeAll_of_empty {w : Nat} {s : Finset Cidr} (h : mergeSet w s = ∅) :
    mergeAll w s = s := by
  rw [mergeAll, h]
  simp

lemma card_mergeAll_le (w : Nat) (s : Finset Cidr) :
    (mergeAll w s).card ≤ s.card := by
  have h1 := Finset.card_union_le (s \ mergeSet w s) ((mergeSet w s).image (parentOf w))
  have h2 : ((mergeSet w s).image (parentOf w)).card ≤ (mergeSet w s).card :=
    Finset.card_image_le
  have h3 : (s \ mergeSet w s).card = s.card - (mergeSet w s).card :=
    Finset.card_sdiff (mergeSet_subset w s)
  have h4 : (mergeSet w s).card ≤ s.card := Finset.card_le_card (mergeSet_subset w s)
  rw [mergeAll]
  omega

/-- A productive merging pass strictly shrinks the set: the two members
of a sibling pair are replaced by one parent. -/
lemma card_mergeAll_lt {w : Nat} {s : Finset Cidr} (hval : ∀ p ∈ s, Valid w p)
    (hne : mergeSet w s ≠ ∅) : (mergeAll w s).card < s.card := by
  obtain ⟨p0, hp0⟩ := Finset.nonempty_iff_ne_empty.mpr hne
  have hv0 : Valid w p0 := hval p0 (mergeSet_subset w s hp0)
  have h00 : p0.len ≠ 0 := (mem_mergeSet.mp hp0).2.1
  have hsib : sibling w p0 ∈ (mergeSet w s).erase p0 :=
    Finset.mem_erase.mpr ⟨sibling_ne hv0 h00, mergeSet_sibling hval hp0⟩
  have himg : (mergeSet w s).image (parentOf w) =
      ((mergeSet w s).erase p0).image (parentOf w) := by
    apply Finset.Subset.antisymm
    · intro x hx
      rw [Finset.mem_image] at hx ⊢
      obtain ⟨q, hq, rfl⟩ := hx
      by_cases hq0 : q = p0
      · subst hq0
        exact ⟨sibling w q, hsib, parent_sibling (hval q (mergeSet_subset w s hq))
          (mem_mergeSet.mp hq).2.1⟩
      · exact ⟨q, Finset.mem_erase.mpr ⟨hq0, hq⟩, rfl⟩
    · exact Finset.image_subset_image (Finset.erase_subset _ _)
  have h1 := Finset.card_union_le (s \ mergeSet w s) ((mergeSet w s).image (parentOf w))
  have h2 : ((mergeSet w s).image (parentOf w)).card ≤ (mergeSet w s).card - 1 := by
    rw [himg]
    have ha : (((mergeSet w s).erase p0).image (parentOf w)).card ≤
        ((mergeSet w s).erase p0).card := Finset.card_image_le
    have hb : ((mergeSet w s).erase p0).card = (mergeSet w s).card - 1 :=
      Finset.card_erase_of_mem hp0
    omega
  have h3 : (s \ mergeSet w s).card = s.card - (mergeSet w s).card :=
    Finset.card_sdiff (mergeSet_subset w s)
  have h4 : (mergeSet w s).card ≤ s.card := Finset.card_le_card (mergeSet_subset w s)
  have h5 : 0 < (mergeSet w s).card := Finset.card_pos.mpr ⟨p0, hp0⟩
  rw [mergeAll]
  omega

/-! ### The stacked fixpoint -/

lemma aggStep_valid {w : Nat} {s : Finset Cidr} (hval : ∀ p ∈ s, Valid w p) :
    ∀ x ∈ aggStep w s, Valid w x :=
  fun x hx => mergeAll_valid hval x (phase1_subset w _ hx)

lemma aggStep_coveredBy {w : Nat} {s : Finset Cidr} (hval : ∀ p ∈ s, Valid w p)
    (a : Nat) : coveredBy w (aggStep w s) a ↔ coveredBy w s a := by
  rw [aggStep, phase1_coveredBy (mergeAll_valid hval), mergeAll_coveredBy hval]

/-- A round that changes the working set strictly shrinks it. -/
lemma aggStep_card_lt {w : Nat} {s : Finset Cidr} (hval : ∀ p ∈ s, Valid w p)
    (hne : aggStep w s ≠ s) : (aggStep w s).card < s.card := by
  by_cases hM : mergeSet w s = ∅
  · have hma : mergeAll w s = s := mergeAll_of_empty hM
    rw [aggStep, hma] at hne ⊢
    exact Finset.card_lt_card (Finset.ssubset_iff_subset_ne.mpr ⟨phase1_subset w s, hne⟩)
  · have h1 := card_mergeAll_lt hval hM
    have h2 : (aggStep w s).card ≤ (mergeAll w s).card :=
      Finset.card_le_card (phase1_subset _ _)
    omega

lemma aggIter_valid {w : Nat} (n : Nat) :
    ∀ s : Finset Cidr, (∀ p ∈ s, Valid w p) → ∀ x ∈ aggIter w n s, Valid w x := by
  induction n with
  | zero => intro s hval; exact hval
  | succ n ih =>
    intro s hval
    simp only [aggIter]
    split
    · exact hval
    · exact ih _ (aggStep_valid hval)

lemma aggIter_coveredBy {w : Nat} (n : Nat) :
    ∀ s : Finset Cidr, (∀ p ∈ s, Valid w p) →
      ∀ a, coveredBy w (aggIter w n s) a ↔ coveredBy w s a := by
  induction n with
  | zero => intro s _ a; exact Iff.rfl
  | succ n ih =>
    intro s hval a
    simp only [aggIter]
    split
    · exact Iff.rfl
    · rw [ih _ (aggStep_valid hval), aggStep_coveredBy hval]

/-- Iterating from a fixpoint stays put. -/
lemma aggIter_fix {w : Nat} (n : Nat) {s : Finset Cidr} (h : aggStep w s = s) :
    aggIter w n s = s := by
  induction n with
  | zero => rfl
  | succ n ih => simp only [aggIter, if_pos h]

/-- With fuel above the cardinality, the loop reaches a fixpoint. -/
lemma aggIter_reaches {w : Nat} (n : Nat) :
    ∀ s : Finset Cidr, (∀ p ∈ s, Valid w p) → s.card < n →
      aggStep w (aggIter w n s) = aggIter w n s := by
  induction n with
  | zero => intro s _ h; omega
  | succ n ih =>
    intro s hval hcard
    by_cases h : aggStep w s = s
    · simp only [aggIter, if_pos h]
      exact h
    · simp only [aggIter, if_neg h]
      refine ih _ (aggStep_valid hval) ?_
      have := aggStep_card_lt hval h
      omega

lemma Aggregate_valid {w : Nat} {s : Finset Cidr} (hval : ∀ p ∈ s, Valid w p) :
    ∀ x ∈ Aggregate w s, Valid w x :=
  aggIter_valid _ _ hval

lemma Aggregate_fix {w : Nat} {s : Finset Cidr} (hval : ∀ p ∈ s, Valid w p) :
    aggStep w (Aggregate w s) = Aggregate w s :=
  aggIter_reaches _ _ hval (Nat.lt_succ_self _)

/-- At a fixpoint the set survives containment elimination unchanged and
holds no complete sibling pair. -/
lemma fix_phase1_mergeSet {w : Nat} {s : Finset Cidr} (hval : ∀ p ∈ s, Valid w p)
    (hfix : aggStep w s = s) : phase1 w s = s ∧ mergeSet w s = ∅ := by
  have hM : mergeSet w s = ∅ := by
    by_contra hM
    have h1 := card_mergeAll_lt hval hM
    have h2 : s.card ≤ (mergeAll w s).card := by
      conv_lhs => rw [← hfix]
      exact Finset.card_le_card (phase1_subset _ _)
    omega
  refine ⟨?_, hM⟩
  rw [aggStep, mergeAll_of_empty hM] at hfix
  exact hfix

/-! ### Claims about the Aggregator -/

/-- C1: for every finite set of blocks of one address family (all valid
for the family width), the set of individual addresses covered by the
aggregation equals the set of addresses covered by the input. -/
theorem aggregate_coverage_preserving {w : Nat} {s : Finset Cidr}
    (hval : ∀ p ∈ s, Valid w p) (a : Nat) :
    coveredBy w (Aggregate w s) a ↔ coveredBy w s a :=
  aggIter_coveredBy _ _ hval a

theorem aggregate_coverage_preserving_witness :
    (∀ p ∈ ({⟨0, 4⟩} : Finset Cidr), Valid 4 p) ∧
      (coveredBy 4 (Aggregate 4 {⟨0, 4⟩}) 0 ↔ coveredBy 4 ({⟨0, 4⟩} : Finset Cidr) 0) :=
  ⟨by decide, aggregate_coverage_preserving (by decide) 0⟩

/-- C2: the aggregation of a valid input set holds no complete sibling
pair at all — in particular no two of its blocks are siblings whose
parent is absent from the result, so the output is minimal. -/
theorem aggregate_minimal {w : Nat} {s : Finset Cidr}
    (hval : ∀ p ∈ s, Valid w p) :
    ∀ p ∈ Aggregate w s, p.len ≠ 0 → sibling w p ∉ Aggregate w s := by
  have hfix := Aggregate_fix hval
  obtain ⟨_, hM⟩ := fix_phase1_mergeSet (Aggregate_valid hval) hfix
  intro p hp h0 hsib
  have : p ∈ mergeSet w (Aggregate w s) := mem_mergeSet.mpr ⟨hp, h0, hsib⟩
  rw [hM] at this
  exact absurd this (Finset.not_mem_empty p)

theorem aggregate_minimal_witness :
    (∀ p ∈ ({⟨0, 4⟩, ⟨1, 4⟩} : Finset Cidr), Valid 4 p) ∧
      sibling 4 ⟨0, 3⟩ ∉ Aggregate 4 {⟨0, 4⟩, ⟨1, 4⟩} :=
  ⟨by decide, aggregate_minimal (by decide) ⟨0, 3⟩ (by decide) (by decide)⟩

/-- C3: no two distinct blocks of the aggregation of a valid input set
cover a common address — the output is pairwise disjoint. -/
theorem aggregate_disjoint {w : Nat} {s : Finset Cidr}
    (hval : ∀ p ∈ s, Valid w p) :
    ∀ p ∈ Aggregate w s, ∀ q ∈ Aggregate w s, p ≠ q →
      ∀ a : Nat, ¬(covers w p a ∧ covers w q a) := by
  have hvout := Aggregate_valid hval
  obtain ⟨hph, _⟩ := fix_phase1_mergeSet hvout (Aggregate_fix hval)
  have hnosub : ∀ p ∈ Aggregate w s, ¬ ∃ q ∈ Aggregate w s, q ≠ p ∧ subnetOf w p q := by
    intro p hp
    have := (Finset.filter_eq_self.mp hph) p hp
    exact this
  rintro p hp q hq hpq a ⟨hca, hcb⟩
  rcases le_total q.len p.len with hlen | hlen
  · exact hnosub p hp ⟨q, hq, fun h => hpq h.symm, subnet_of_overlap
      (hvout p hp) (hvout q hq) hlen hca hcb⟩
  · exact hnosub q hq ⟨p, hp, hpq, subnet_of_overlap
      (hvout q hq) (hvout p hp) hlen hcb hca⟩

theorem aggregate_disjoint_witness :
    (∀ p ∈ ({⟨0, 4⟩, ⟨8, 4⟩} : Finset Cidr), Valid 4 p) ∧
      ¬(covers 4 ⟨0, 4⟩ 0 ∧ covers 4 ⟨8, 4⟩ 0) :=
  ⟨by decide, @aggregate_disjoint 4 {⟨0, 4⟩, ⟨8, 4⟩} (by decide) ⟨0, 4⟩ (by decide)
    ⟨8, 4⟩ (by decide) (by decide) 0⟩

/-- C4: aggregation is idempotent on valid inputs — aggregating the
aggregation returns the same set. -/
theorem aggregate_idempotent {w : Nat} {s : Finset Cidr}
    (hval : ∀ p ∈ s, Valid w p) :
    Aggregate w (Aggregate w s) = Aggregate w s :=
  aggIter_fix _ (Aggregate_fix hval)

theorem aggregate_idempotent_witness :
    (∀ p ∈ ({⟨0, 4⟩, ⟨1, 4⟩} : Finset Cidr), Valid 4 p) ∧
      Aggregate 4 (Aggregate 4 {⟨0, 4⟩, ⟨1, 4⟩}) = Aggregate 4 {⟨0, 4⟩, ⟨1, 4⟩} :=
  ⟨by decide, aggregate_idempotent (by decide)⟩

/-- C5: aggregation does not depend on the enumeration order of the
input collection — two runs over permuted collections give the same
output set. -/
theorem aggregate_order_independent {w : Nat} {l1 l2 : List Cidr}
    (h : l1.Perm l2) : AggregateList w l1 = AggregateList w l2 := by
  rw [AggregateList, AggregateList, List.toFinset_eq_of_perm l1 l2 h]

theorem aggregate_order_independent_witness :
    ([⟨0, 4⟩, ⟨1, 4⟩] : List Cidr).Perm [⟨1, 4⟩, ⟨0, 4⟩] ∧
      AggregateList 4 [⟨0, 4⟩, ⟨1, 4⟩] = AggregateList 4 [⟨1, 4⟩, ⟨0, 4⟩] :=
  ⟨by decide, aggregate_order_independent (by decide)⟩

/-- C6: on the input {10.0.0.0/24, 10.0.1.0/24, 10.0.3.0/24} (with
10.0.2.0/24 missing) aggregation returns exactly
{10.0.0.0/23, 10.0.3.0/24}: the complete sibling pair merges to the /23
and nothing merges above it. -/
theorem aggregate_scenario_partial_sibling :
    Aggregate 32 {⟨167772160, 24⟩, ⟨167772416, 24⟩, ⟨167772928, 24⟩} =
      {⟨167772160, 23⟩, ⟨167772928, 24⟩} := by decide

/-- C7: on every finite valid input the aggregation loop reaches its
fixpoint within the given fuel (it terminates with a result rather than
erroring), and the result consists of valid blocks of the family. -/
theorem aggregate_total_on_valid {w : Nat} {s : Finset Cidr}
    (hval : ∀ p ∈ s, Valid w p) :
    aggStep w (Aggregate w s) = Aggregate w s ∧ ∀ p ∈ Aggregate w s, Valid w p :=
  ⟨Aggregate_fix hval, Aggregate_valid hval⟩

theorem aggregate_total_on_valid_witness :
    (∀ p ∈ ({⟨2, 3⟩} : Finset Cidr), Valid 4 p) ∧
      (aggStep 4 (Aggregate 4 {⟨2, 3⟩}) = Aggregate 4 {⟨2, 3⟩} ∧
        ∀ p ∈ Aggregate 4 {⟨2, 3⟩}, Valid 4 p) :=
  ⟨by decide, aggregate_total_on_valid (by decide)⟩

/-! ### Fetcher record loops -/

lemma skipStep_none (toRaw : String → Option Net) {bad : String}
    (h : ipNetwork toRaw true bad = none) (acc : Finset Net × Finset Net) :
    skipStep toRaw acc bad = acc := by
  simp [skipStep, h]

lemma skip_fold_middle (toRaw : String → Option Net) (l1 l2 : List String)
    {bad : String} (h : ipNetwork toRaw true bad = none) (acc : Finset Net × Finset Net) :
    (l1 ++ bad :: l2).foldl (skipStep toRaw) acc = (l1 ++ l2).foldl (skipStep toRaw) acc := by
  rw [List.foldl_append, List.foldl_append, List.foldl_cons, skipStep_none toRaw h]

lemma doStep_none (toRaw : String → Option Net) {bad : String}
    (h : ipNetwork toRaw true (firstField bad) = none) (acc : Finset Net × Finset Net) :
    doStep toRaw acc bad = acc := by
  rw [doStep]
  exact skipStep_none toRaw h acc

lemma do_fold_middle (toRaw : String → Option Net) (l1 l2 : List String)
    {bad : String} (h : ipNetwork toRaw true (firstField bad) = none)
    (acc : Finset Net × Finset Net) :
    (l1 ++ bad :: l2).foldl (doStep toRaw) acc = (l1 ++ l2).foldl (doStep toRaw) acc := by
  rw [List.foldl_append, List.foldl_append, List.foldl_cons, doStep_none toRaw h]

lemma linodeStep_skip (toRaw : String → Option Net) {line : String}
    (h : startsWithHash line = true ∨ ipNetwork toRaw false (firstField line) = none)
    (acc : Finset Net × Finset Net) : linodeStep toRaw acc line = acc := by
  rcases h with h | h
  · simp [linodeStep, h]
  · by_cases hc : startsWithHash line
    · simp [linodeStep, hc]
    · simp [linodeStep, hc, h]

lemma linode_fold_middle (toRaw : String → Option Net) (l1 l2 : List String)
    {line : String}
    (h : startsWithHash line = true ∨ ipNetwork toRaw false (firstField line) = none)
    (acc : Finset Net × Finset Net) :
    (l1 ++ line :: l2).foldl (linodeStep toRaw) acc =
      (l1 ++ l2).foldl (linodeStep toRaw) acc := by
  rw [List.foldl_append, List.foldl_append, List.foldl_cons, linodeStep_skip toRaw h]

/-- The IPv4 side of the Linode accumulator only ever grows. -/
lemma linodeStep_fst (toRaw : String → Option Net) (acc : Finset Net × Finset Net)
    (a : String) :
    (linodeStep toRaw acc a).1 = acc.1 ∨
      ∃ n, (linodeStep toRaw acc a).1 = insert n acc.1 := by
  by_cases hc : startsWithHash a
  · simp [linodeStep, hc]
  · cases hp : ipNetwork toRaw false (firstField a) with
    | none => simp [linodeStep, hc, hp]
    | some n =>
      by_cases h4 : n.ver = 4
      · right
        exact ⟨n, by simp [linodeStep, hc, hp, h4]⟩
      · by_cases h6 : n.ver = 6
        · simp [linodeStep, hc, hp, h4, h6]
        · simp [linodeStep, hc, hp, h4, h6]

lemma linode_fold_mono (toRaw : String → Option Net) (l : List String) :
    ∀ (acc : Finset Net × Finset Net) {x : Net}, x ∈ acc.1 →
      x ∈ (l.foldl (linodeStep toRaw) acc).1 := by
  induction l with
  | nil => intro acc x h; exact h
  | cons a l ih =>
    intro acc x h
    rw [List.foldl_cons]
    apply ih
    rcases linodeStep_fst toRaw acc a with he | ⟨n, he⟩
    · rw [he]; exact h
    · rw [he]; exact Finset.mem_insert_of_mem h

/-- A record list containing an unparsable record makes the AWS/GCP-style
comprehension abort with an error. -/
lemma comprehend_error {toRaw : String → Option Net} :
    ∀ {recs : List String}, (∃ r ∈ recs, ipNetwork toRaw true r = none) →
      ∃ e, comprehend toRaw recs = Except.error e := by
  intro recs
  induction recs with
  | nil =>
    rintro ⟨r, hr, _⟩
    exact absurd hr (List.not_mem_nil r)
  | cons r rest ih =>
    rintro ⟨b, hb, hbad⟩
    rw [List.mem_cons] at hb
    cases hp : ipNetwork toRaw true r with
    | none => exact ⟨r, by simp [comprehend, hp]⟩
    | some n =>
      have hbrest : b ∈ rest := by
        rcases hb with rfl | h
        · rw [hp] at hbad
          cases hbad
        · exact h
      obtain ⟨e, he⟩ := ih ⟨b, hbrest, hbad⟩
      exact ⟨e, by simp [comprehend, hp, he]⟩

lemma fetch_aws_error {toRaw : String → Option Net} {v4 : List String}
    (h : ∃ r ∈ v4, ipNetwork toRaw true r = none) (v6 : List String) :
    ∃ e, fetch_aws_ip_ranges toRaw v4 v6 = Except.error e := by
  obtain ⟨e, he⟩ := comprehend_error h
  exact ⟨e, by simp [fetch_aws_ip_ranges, he]⟩

lemma fetch_gcp_error {toRaw : String → Option Net} {v4 : List String}
    (h : ∃ r ∈ v4, ipNetwork toRaw true r = none) (v6 : List String) :
    ∃ e, fetch_gcp_ip_ranges toRaw v4 v6 = Except.error e := by
  obtain ⟨e, he⟩ := comprehend_error h
  exact ⟨e, by simp [fetch_gcp_ip_ranges, he]⟩

/-! ### Claims about the fetchers and the failure report -/

/-- C8 (counterexample): a record list with one malformed prefix string
makes the AWS record loop abort with that record instead of returning the
remaining records, while the Oracle-style loop keeps them. -/
theorem fetch_aws_aborts_on_malformed :
    fetch_aws_ip_ranges tinyDecode ["10.0.0.0/24", "10.0.0.7/24"] [] =
      Except.error "10.0.0.7/24" ∧
    fetch_oracle_ip_ranges tinyDecode ["10.0.0.0/24", "10.0.0.7/24"] =
      ({⟨4, 167772160, 24⟩}, ∅) := by decide

/-- C8 (amended): a record whose prefix string fails to parse is skipped
individually — with the remaining records still contributed — by the
Azure, Oracle, DigitalOcean and Linode fetchers; in the AWS and GCP
fetchers the parse failure propagates and aborts the whole source's
record processing. -/
theorem fetchers_malformed_record_handling (toRaw : String → Option Net)
    (l1 l2 : List String) (bad : String)
    (hbad : ipNetwork toRaw true bad = none)
    (hbadf : ipNetwork toRaw true (firstField bad) = none)
    (hbadl : ipNetwork toRaw false (firstField bad) = none) :
    fetch_azure_ip_ranges toRaw (l1 ++ bad :: l2) = fetch_azure_ip_ranges toRaw (l1 ++ l2) ∧
    fetch_oracle_ip_ranges toRaw (l1 ++ bad :: l2) = fetch_oracle_ip_ranges toRaw (l1 ++ l2) ∧
    fetch_digital_ocean_ip_ranges toRaw (l1 ++ bad :: l2) =
      fetch_digital_ocean_ip_ranges toRaw (l1 ++ l2) ∧
    linode_ip_ranges toRaw (l1 ++ bad :: l2) = linode_ip_ranges toRaw (l1 ++ l2) ∧
    (∀ v6, ∃ e, fetch_aws_ip_ranges toRaw (l1 ++ bad :: l2) v6 = Except.error e) ∧
    (∀ v6, ∃ e, fetch_gcp_ip_ranges toRaw (l1 ++ bad :: l2) v6 = Except.error e) := by
  have hmem : bad ∈ l1 ++ bad :: l2 := List.mem_append.mpr (Or.inr (List.mem_cons_self _ _))
  refine ⟨?_, ?_, ?_, ?_, ?_, ?_⟩
  · rw [fetch_azure_ip_ranges, fetch_azure_ip_ranges]
    exact skip_fold_middle toRaw l1 l2 hbad _
  · rw [fetch_oracle_ip_ranges, fetch_oracle_ip_ranges]
    exact skip_fold_middle toRaw l1 l2 hbad _
  · rw [fetch_digital_ocean_ip_ranges, fetch_digital_ocean_ip_ranges]
    exact do_fold_middle toRaw l1 l2 hbadf _
  · rw [linode_ip_ranges, linode_ip_ranges]
    exact linode_fold_middle toRaw l1 l2 (Or.inr hbadl) _
  · exact fun v6 => fetch_aws_error ⟨bad, hmem, hbad⟩ v6
  · exact fun v6 => fetch_gcp_error ⟨bad, hmem, hbad⟩ v6

theorem fetchers_malformed_record_handling_witness :
    (ipNetwork tinyDecode true "zzz" = none ∧
      ipNetwork tinyDecode true (firstField "zzz") = none ∧
      ipNetwork tinyDecode false (firstField "zzz") = none) ∧
    fetch_oracle_ip_ranges tinyDecode (["10.0.0.0/24"] ++ "zzz" :: []) =
      fetch_oracle_ip_ranges tinyDecode (["10.0.0.0/24"] ++ []) :=
  ⟨⟨by decide, by decide, by decide⟩,
    (fetchers_malformed_record_handling tinyDecode ["10.0.0.0/24"] [] "zzz"
      (by decide) (by decide) (by decide)).2.1⟩

/-- `main` appends a provider to the report exactly when both of its
returned sets are empty. -/
lemma mem_failed_foldl (runs : List (String × Option (Finset Net × Finset Net))) :
    ∀ (acc : List String) (name : String),
      name ∈ runs.foldl failedStep acc ↔
        name ∈ acc ∨ ∃ r ∈ runs, r.1 = name ∧
          (providerSets r.2).1 = ∅ ∧ (providerSets r.2).2 = ∅ := by
  induction runs with
  | nil =>
    intro acc name
    simp
  | cons r rest ih =>
    intro acc name
    rw [List.foldl_cons]
    by_cases h : (providerSets r.2).1 = ∅ ∧ (providerSets r.2).2 = ∅
    · rw [show failedStep acc r = acc ++ [r.1] from by rw [failedStep, if_pos h]]
      rw [ih (acc ++ [r.1]) name]
      constructor
      · rintro (ha | ⟨x, hx, hprop⟩)
        · rcases List.mem_append.mp ha with ha | ha
          · exact Or.inl ha
          · exact Or.inr ⟨r, List.mem_cons_self _ _,
              (List.mem_singleton.mp ha).symm, h.1, h.2⟩
        · exact Or.inr ⟨x, List.mem_cons_of_mem _ hx, hprop⟩
      · rintro (ha | ⟨x, hx, hprop⟩)
        · exact Or.inl (List.mem_append.mpr (Or.inl ha))
        · rcases List.mem_cons.mp hx with rfl | hx
          · exact Or.inl (List.mem_append.mpr (Or.inr (List.mem_singleton.mpr hprop.1.symm)))
          · exact Or.inr ⟨x, hx, hprop⟩
    · rw [show failedStep acc r = acc from by rw [failedStep, if_neg h]]
      rw [ih acc name]
      constructor
      · rintro (ha | ⟨x, hx, hprop⟩)
        · exact Or.inl ha
        · exact Or.inr ⟨x, List.mem_cons_of_mem _ hx, hprop⟩
      · rintro (ha | ⟨x, hx, hprop⟩)
        · exact Or.inl ha
        · rcases List.mem_cons.mp hx with rfl | hx
          · exact absurd ⟨hprop.2.1, hprop.2.2⟩ h
          · exact Or.inr ⟨x, hx, hprop⟩

lemma unionStep_none (acc : Finset Net × Finset Net) (name : String) :
    unionStep acc (name, none) = acc := by
  simp [unionStep, providerSets]

/-- C9 (counterexample): a provider whose fetch succeeded but returned
zero prefixes (here: AWS with empty record lists) is listed in `main`'s
failure report, so the report is not exactly the fetch-failed providers
and the two situations are not distinguishable. -/
theorem failed_report_not_exact :
    failed_providers [("AWS", some (∅, ∅))] = ["AWS"] ∧
    fetchFailed [("AWS", some (∅, ∅))] = [] ∧
    failed_providers [("AWS", some (∅, ∅))] ≠ fetchFailed [("AWS", some (∅, ∅))] := by
  refine ⟨by decide, by decide, ?_⟩
  intro h
  rw [show failed_providers [("AWS", some (∅, ∅))] = ["AWS"] from by decide,
    show fetchFailed [("AWS", some (∅, ∅))] = [] from by decide] at h
  cases h

/-- C9 (amended): a provider whose fetch failed after all retries
contributes nothing to the union and the run proceeds; `main`'s failure
report lists exactly the providers that contributed zero prefixes in
both families — every fetch-failed provider is reported, but a provider
that succeeded with zero advertised prefixes is reported identically, so
the two cases are not distinguishable from the report. -/
theorem failed_report_lists_empty_contributors :
    (∀ (runs : List (String × Option (Finset Net × Finset Net))) (name : String),
      name ∈ failed_providers runs ↔
        ∃ r ∈ runs, r.1 = name ∧ (providerSets r.2).1 = ∅ ∧ (providerSets r.2).2 = ∅) ∧
    (∀ (pre post : List (String × Option (Finset Net × Finset Net))) (name : String),
      mainUnion (pre ++ (name, none) :: post) = mainUnion (pre ++ post)) ∧
    (∀ (runs : List (String × Option (Finset Net × Finset Net))) (name : String),
      (name, (none : Option (Finset Net × Finset Net))) ∈ runs →
        name ∈ failed_providers runs) := by
  have hmain : ∀ (runs : List (String × Option (Finset Net × Finset Net))) name,
      name ∈ failed_providers runs ↔
        ∃ r ∈ runs, r.1 = name ∧ (providerSets r.2).1 = ∅ ∧ (providerSets r.2).2 = ∅ := by
    intro runs name
    rw [failed_providers, mem_failed_foldl runs [] name]
    simp
  refine ⟨hmain, ?_, ?_⟩
  · intro pre post name
    rw [mainUnion, mainUnion, List.foldl_append, List.foldl_append, List.foldl_cons,
      unionStep_none]
  · intro runs name hmem
    exact (hmain runs name).mpr ⟨(name, none), hmem, rfl, rfl, rfl⟩

lemma linodeStep_insert (toRaw : String → Option Net) (acc : Finset Net × Finset Net)
    {line : String} {n : Net} (hc : startsWithHash line = false)
    (hp : ipNetwork toRaw false (firstField line) = some n) (h4 : n.ver = 4) :
    (linodeStep toRaw acc line).1 = insert n acc.1 := by
  simp [linodeStep, hc, hp, h4]

lemma linodeStep_snd (toRaw : String → Option Net) (acc : Finset Net × Finset Net)
    (a : String) :
    (linodeStep toRaw acc a).2 = acc.2 ∨
      ∃ n, (linodeStep toRaw acc a).2 = insert n acc.2 := by
  by_cases hc : startsWithHash a
  · simp [linodeStep, hc]
  · cases hp : ipNetwork toRaw false (firstField a) with
    | none => simp [linodeStep, hc, hp]
    | some n =>
      by_cases h4 : n.ver = 4
      · simp [linodeStep, hc, hp, h4]
      · by_cases h6 : n.ver = 6
        · right
          exact ⟨n, by simp [linodeStep, hc, hp, h4, h6]⟩
        · simp [linodeStep, hc, hp, h4, h6]

lemma linode_fold_mono_snd (toRaw : String → Option Net) (l : List String) :
    ∀ (acc : Finset Net × Finset Net) {x : Net}, x ∈ acc.2 →
      x ∈ (l.foldl (linodeStep toRaw) acc).2 := by
  induction l with
  | nil => intro acc x h; exact h
  | cons a l ih =>
    intro acc x h
    rw [List.foldl_cons]
    apply ih
    rcases linodeStep_snd toRaw acc a with he | ⟨n, he⟩
    · rw [he]; exact h
    · rw [he]; exact Finset.mem_insert_of_mem h

lemma linodeStep_insert6 (toRaw : String → Option Net) (acc : Finset Net × Finset Net)
    {line : String} {n : Net} (hc : startsWithHash line = false)
    (hp : ipNetwork toRaw false (firstField line) = some n) (h6 : n.ver = 6) :
    (linodeStep toRaw acc line).2 = insert n acc.2 := by
  have h4 : ¬ n.ver = 4 := by omega
  simp [linodeStep, hc, hp, h4, h6]

/-- C10: `linode_ip_ranges` skips every line starting with `#`, and a
remaining record of either address family whose address has nonzero bits
beyond the prefix length is kept with those host bits masked to zero
(the canonical network address, via `strict=False`), filed under its
family's set — unlike every other fetcher, for which the same record is
a strict-parse error that Azure/Oracle/DigitalOcean discard and AWS/GCP
propagate. -/
theorem linode_comment_skip_and_mask (toRaw : String → Option Net)
    (l1 l2 : List String) (cm line rc : String) (r : Net)
    (hcm : startsWithHash cm = true)
    (hline : startsWithHash line = false)
    (hdec : toRaw (firstField line) = some r)
    (hrc : toRaw rc = some r)
    (hv : r.ver = 4 ∨ r.ver = 6)
    (hplen : r.plen ≤ famWidth r.ver)
    (hbase : r.base < 2 ^ famWidth r.ver)
    (hhost : r.base % 2 ^ (famWidth r.ver - r.plen) ≠ 0) :
    linode_ip_ranges toRaw (l1 ++ cm :: l2) = linode_ip_ranges toRaw (l1 ++ l2) ∧
    (r.ver = 4 →
      (⟨r.ver, r.base - r.base % 2 ^ (famWidth r.ver - r.plen), r.plen⟩ : Net) ∈
        (linode_ip_ranges toRaw (l1 ++ line :: l2)).1) ∧
    (r.ver = 6 →
      (⟨r.ver, r.base - r.base % 2 ^ (famWidth r.ver - r.plen), r.plen⟩ : Net) ∈
        (linode_ip_ranges toRaw (l1 ++ line :: l2)).2) ∧
    ipNetworkRaw true r = none ∧
    fetch_oracle_ip_ranges toRaw (l1 ++ rc :: l2) = fetch_oracle_ip_ranges toRaw (l1 ++ l2) ∧
    fetch_azure_ip_ranges toRaw (l1 ++ rc :: l2) = fetch_azure_ip_ranges toRaw (l1 ++ l2) ∧
    fetch_digital_ocean_ip_ranges toRaw (l1 ++ line :: l2) =
      fetch_digital_ocean_ip_ranges toRaw (l1 ++ l2) ∧
    (∀ v6, ∃ e, fetch_aws_ip_ranges toRaw (l1 ++ rc :: l2) v6 = Except.error e) ∧
    (∀ v6, ∃ e, fetch_gcp_ip_ranges toRaw (l1 ++ rc :: l2) v6 = Except.error e) := by
  have hcond : (r.ver = 4 ∨ r.ver = 6) ∧ r.plen ≤ famWidth r.ver ∧
      r.base < 2 ^ famWidth r.ver := ⟨hv, hplen, hbase⟩
  have hstrict : ipNetworkRaw true r = none := by
    rw [ipNetworkRaw, if_pos hcond, if_neg hhost]
    rfl
  have hmasked : ipNetworkRaw false r =
      some ⟨r.ver, r.base - r.base % 2 ^ (famWidth r.ver - r.plen), r.plen⟩ := by
    rw [ipNetworkRaw, if_pos hcond, if_neg hhost]
    rfl
  have hmaskedLn : ipNetwork toRaw false (firstField line) =
      some ⟨r.ver, r.base - r.base % 2 ^ (famWidth r.ver - r.plen), r.plen⟩ := by
    rw [ipNetwork, hdec, Option.some_bind, hmasked]
  have hstrictRc : ipNetwork toRaw true rc = none := by
    rw [ipNetwork, hrc, Option.some_bind, hstrict]
  have hstrictLn : ipNetwork toRaw true (firstField line) = none := by
    rw [ipNetwork, hdec, Option.some_bind, hstrict]
  have hmem : rc ∈ l1 ++ rc :: l2 :=
    List.mem_append.mpr (Or.inr (List.mem_cons_self _ _))
  refine ⟨?_, ?_, ?_, hstrict, ?_, ?_, ?_, ?_, ?_⟩
  · rw [linode_ip_ranges, linode_ip_ranges]
    exact linode_fold_middle toRaw l1 l2 (Or.inl hcm) _
  · intro h4
    rw [linode_ip_ranges, List.foldl_append, List.foldl_cons]
    apply linode_fold_mono
    rw [linodeStep_insert toRaw _ hline hmaskedLn h4]
    exact Finset.mem_insert_self _ _
  · intro h6
    rw [linode_ip_ranges, List.foldl_append, List.foldl_cons]
    apply linode_fold_mono_snd
    rw [linodeStep_insert6 toRaw _ hline hmaskedLn h6]
    exact Finset.mem_insert_self _ _
  · rw [fetch_oracle_ip_ranges, fetch_oracle_ip_ranges]
    exact skip_fold_middle toRaw l1 l2 hstrictRc _
  · rw [fetch_azure_ip_ranges, fetch_azure_ip_ranges]
    exact skip_fold_middle toRaw l1 l2 hstrictRc _
  · rw [fetch_digital_ocean_ip_ranges, fetch_digital_ocean_ip_ranges]
    exact do_fold_middle toRaw l1 l2 hstrictLn _
  · exact fun v6 => fetch_aws_error ⟨rc, hmem, hstrictRc⟩ v6
  · exact fun v6 => fetch_gcp_error ⟨rc, hmem, hstrictRc⟩ v6

theorem linode_comment_skip_and_mask_witness :
    (startsWithHash "# comment" = true ∧ startsWithHash "10.0.0.7/24" = false ∧
      startsWithHash "2600::1/32" = false ∧
      tinyDecode (firstField "10.0.0.7/24") = some ⟨4, 167772167, 24⟩ ∧
      tinyDecode (firstField "2600::1/32") = some ⟨6, 9728 * 2 ^ 112 + 1, 32⟩ ∧
      (24 : Nat) ≤ famWidth 4 ∧ (167772167 : Nat) < 2 ^ famWidth 4 ∧
      (167772167 : Nat) % 2 ^ (famWidth 4 - 24) ≠ 0 ∧
      (32 : Nat) ≤ famWidth 6 ∧ (9728 * 2 ^ 112 + 1 : Nat) < 2 ^ famWidth 6 ∧
      (9728 * 2 ^ 112 + 1 : Nat) % 2 ^ (famWidth 6 - 32) ≠ 0) ∧
    (⟨4, 167772160, 24⟩ : Net) ∈
      (linode_ip_ranges tinyDecode ([] ++ "10.0.0.7/24" :: [])).1 ∧
    (⟨6, 9728 * 2 ^ 112 + 1 - (9728 * 2 ^ 112 + 1) % 2 ^ (famWidth 6 - 32), 32⟩ : Net) ∈
      (linode_ip_ranges tinyDecode ([] ++ "2600::1/32" :: [])).2 ∧
    (⟨6, 9728 * 2 ^ 112 + 1 - (9728 * 2 ^ 112 + 1) % 2 ^ (famWidth 6 - 32), 32⟩ : Net) =
      ⟨6, 9728 * 2 ^ 112, 32⟩ :=
  ⟨⟨by decide, by decide, by decide, by decide, by decide, by decide, by decide,
      by decide, by decide, by decide, by decide⟩,
    (linode_comment_skip_and_mask tinyDecode [] [] "# comment" "10.0.0.7/24"
      "10.0.0.7/24" ⟨4, 167772167, 24⟩ (by decide) (by decide) (by decide) (by decide)
      (Or.inl rfl) (by decide) (by decide) (by decide)).2.1 rfl,
    (linode_comment_skip_and_mask tinyDecode [] [] "# comment" "2600::1/32"
      "2600::1/32" ⟨6, 9728 * 2 ^ 112 + 1, 32⟩ (by decide) (by decide) (by decide)
      (by decide) (Or.inr rfl) (by decide) (by decide) (by decide)).2.2.1 rfl,
    by decide⟩

theorem failed_report_lists_empty_contributors_witness :
    "GCP" ∈ failed_providers [("GCP", (none : Option (Finset Net × Finset Net)))] :=
  failed_report_lists_empty_contributors.2.2 _ "GCP" (List.mem_singleton.mpr rfl)
